import Mathlib

/-!
Verification of the resilient structured-output extractor of instassist-cli.

The Go source embedded here is src/prompt.go (types optionEntry and
optionResponse, function parseOptions), the selection logic of
runNonInteractive (src/main.go and src/noninteractive.go), and — modelled
from the spec, since its definition is not among the provided sources —
the full extractor extractOptions called from ui.go and noninteractive.go.

Strings are modelled at character level (the Go code indexes bytes, but the
marker and all structural JSON characters are ASCII, so byte positions and
character positions of every object handled here coincide).  Go's
encoding/json decoding of a single JSON value from the head of a reader —
tolerating arbitrary bytes after the value — is embedded as a fuel-indexed
recursive-descent parser over the JSON grammar that Go's scanner accepts,
together with the unmarshalling rules of encoding/json for the two struct
types (unknown fields ignored, ASCII-case-insensitive field matching, null
is a no-op, a number maps to Go int only when it is an integer literal in
the int64 range).
-/

namespace Instassist

/-- Embeds the Go struct optionEntry of src/prompt.go: value string,
description string, recommendation_order int. -/
structure optionEntry where
  value : String
  description : String
  recommendationOrder : Int
deriving DecidableEq, Repr

instance : Inhabited optionEntry := ⟨⟨"", "", 0⟩⟩

/-- Generic JSON value, as produced by Go's encoding/json scanner.  Numbers
keep their literal spelling (Go only converts them when unmarshalling into
a concrete field type); object fields keep their order and duplicates. -/
inductive JVal where
  | jnull : JVal
  | jbool : Bool → JVal
  | jnum : List Char → JVal
  | jstr : String → JVal
  | jarr : List JVal → JVal
  | jobj : List (List Char × JVal) → JVal

/-- The opening-brace character, spelled via its code point. -/
def lbrace : Char := Char.ofNat 123

/-- The closing-brace character, spelled via its code point. -/
def rbrace : Char := Char.ofNat 125

/-- JSON whitespace accepted between tokens by Go's scanner. -/
def isWsChar (c : Char) : Bool := c = ' ' || c = '\t' || c = '\n' || c = '\r'

/-- Drops leading JSON whitespace. -/
def skipWs : List Char → List Char
  | [] => []
  | c :: cs => if isWsChar c then skipWs cs else c :: cs

/-- Hexadecimal digit value, for string escapes of the form backslash-u. -/
def hexVal (c : Char) : Option Nat :=
  if '0' ≤ c ∧ c ≤ '9' then some (c.toNat - 48)
  else if 'a' ≤ c ∧ c ≤ 'f' then some (c.toNat - 87)
  else if 'A' ≤ c ∧ c ≤ 'F' then some (c.toNat - 55)
  else none

/-- Single-character string escapes accepted by JSON. -/
def escChar (c : Char) : Option Char :=
  if c = '"' then some '"'
  else if c = '\\' then some '\\'
  else if c = '/' then some '/'
  else if c = 'b' then some (Char.ofNat 8)
  else if c = 'f' then some (Char.ofNat 12)
  else if c = 'n' then some '\n'
  else if c = 'r' then some '\r'
  else if c = 't' then some '\t'
  else none

/-- Parses the body of a JSON string, after the opening quote: returns the
decoded content and the input remaining after the closing quote.  Raw
control characters below 0x20 are rejected, as in Go's scanner. -/
def parseStringBody : List Char → Option (List Char × List Char)
  | [] => none
  | c :: cs =>
    if c = '"' then some ([], cs)
    else if c = '\\' then
      match cs with
      | 'u' :: h1 :: h2 :: h3 :: h4 :: cs' =>
        match hexVal h1, hexVal h2, hexVal h3, hexVal h4 with
        | some a, some b, some c2, some d =>
          match parseStringBody cs' with
          | some (content, r) =>
            some (Char.ofNat (((a * 16 + b) * 16 + c2) * 16 + d) :: content, r)
          | none => none
        | _, _, _, _ => none
      | e :: cs' =>
        match escChar e with
        | some ch =>
          match parseStringBody cs' with
          | some (content, r) => some (ch :: content, r)
          | none => none
        | none => none
      | [] => none
    else if c.toNat < 32 then none
    else
      match parseStringBody cs with
      | some (content, r) => some (c :: content, r)
      | none => none

/-- Maximal run of decimal digits. -/
def spanDigits : List Char → List Char × List Char
  | [] => ([], [])
  | c :: cs =>
    if c.isDigit then
      match spanDigits cs with
      | (ds, r) => (c :: ds, r)
    else ([], c :: cs)

/-- Integer part of a JSON number: a single 0, or a nonzero digit followed
by any digits (leading zeros are rejected, as in Go's scanner). -/
def parseIntPart : List Char → Option (List Char × List Char)
  | [] => none
  | c :: cs =>
    if c = '0' then some (['0'], cs)
    else if c.isDigit then
      match spanDigits cs with
      | (ds, r) => some (c :: ds, r)
    else none

/-- Optional fractional part: consumes nothing unless a dot is present; a
dot not followed by a digit is a syntax error (no backtracking, as in Go's
scanner). -/
def parseFrac : List Char → Option (List Char × List Char)
  | [] => some ([], [])
  | c :: cs =>
    if c = '.' then
      match spanDigits cs with
      | ([], _) => none
      | (ds, r) => some ('.' :: ds, r)
    else some ([], c :: cs)

/-- Optional exponent part, same no-backtracking policy. -/
def parseExp : List Char → Option (List Char × List Char)
  | [] => some ([], [])
  | c :: cs =>
    if c = 'e' ∨ c = 'E' then
      match cs with
      | [] => none
      | s :: cs' =>
        if s = '+' ∨ s = '-' then
          match spanDigits cs' with
          | ([], _) => none
          | (ds, r) => some (c :: s :: ds, r)
        else
          match spanDigits cs with
          | ([], _) => none
          | (ds, r) => some (c :: ds, r)
    else some ([], c :: cs)

/-- Parses a JSON number starting at the head of the input, returning its
literal spelling and the rest of the input. -/
def parseNumber (cs : List Char) : Option (List Char × List Char) :=
  match cs with
  | '-' :: cs' =>
    match parseIntPart cs' with
    | some (ip, r1) =>
      match parseFrac r1 with
      | some (fp, r2) =>
        match parseExp r2 with
        | some (ep, r3) => some ('-' :: (ip ++ fp ++ ep), r3)
        | none => none
      | none => none
    | none => none
  | _ =>
    match parseIntPart cs with
    | some (ip, r1) =>
      match parseFrac r1 with
      | some (fp, r2) =>
        match parseExp r2 with
        | some (ep, r3) => some (ip ++ fp ++ ep, r3)
        | none => none
      | none => none
    | none => none

/-- Matches an exact keyword continuation (the tail of true, false, null). -/
def matchKw : List Char → List Char → Option (List Char)
  | [], cs => some cs
  | _ :: _, [] => none
  | k :: ks, c :: cs => if c = k then matchKw ks cs else none

mutual

/-- Parses one JSON value from the head of the input, as Go's
json.Decoder.Decode does: leading whitespace is skipped, exactly one value
is read, and everything after it is returned untouched.  The fuel argument
only bounds recursion depth; any fuel of at least twice the input length
plus one is enough (parseVal_fuel below). -/
def parseVal : Nat → List Char → Option (JVal × List Char)
  | 0, _ => none
  | fuel + 1, cs =>
    match skipWs cs with
    | [] => none
    | c :: rest =>
      if c = lbrace then
        match skipWs rest with
        | c2 :: rest2 =>
          if c2 = rbrace then some (.jobj [], rest2)
          else
            match parsePairSeq fuel rest with
            | some (fs, r) => some (.jobj fs, r)
            | none => none
        | [] => none
      else if c = '[' then
        match skipWs rest with
        | c2 :: rest2 =>
          if c2 = ']' then some (.jarr [], rest2)
          else
            match parseItemSeq fuel rest with
            | some (vs, r) => some (.jarr vs, r)
            | none => none
        | [] => none
      else if c = '"' then
        match parseStringBody rest with
        | some (content, r) => some (.jstr (String.mk content), r)
        | none => none
      else if c = 't' then
        match matchKw ['r', 'u', 'e'] rest with
        | some r => some (.jbool true, r)
        | none => none
      else if c = 'f' then
        match matchKw ['a', 'l', 's', 'e'] rest with
        | some r => some (.jbool false, r)
        | none => none
      else if c = 'n' then
        match matchKw ['u', 'l', 'l'] rest with
        | some r => some (.jnull, r)
        | none => none
      else
        match parseNumber (c :: rest) with
        | some (lit, r) => some (.jnum lit, r)
        | none => none

/-- Parses a nonempty sequence of object members up to and including the
closing brace (a trailing comma is rejected, as in Go's scanner). -/
def parsePairSeq : Nat → List Char → Option (List (List Char × JVal) × List Char)
  | 0, _ => none
  | fuel + 1, cs =>
    match skipWs cs with
    | '"' :: rest =>
      match parseStringBody rest with
      | some (key, r1) =>
        match skipWs r1 with
        | ':' :: r2 =>
          match parseVal fuel r2 with
          | some (v, r3) =>
            match skipWs r3 with
            | c :: r4 =>
              if c = ',' then
                match parsePairSeq fuel r4 with
                | some (ps, r5) => some ((key, v) :: ps, r5)
                | none => none
              else if c = rbrace then some ([(key, v)], r4)
              else none
            | [] => none
          | none => none
        | _ => none
      | none => none
    | _ => none

/-- Parses a nonempty sequence of array elements up to and including the
closing bracket. -/
def parseItemSeq : Nat → List Char → Option (List JVal × List Char)
  | 0, _ => none
  | fuel + 1, cs =>
    match parseVal fuel cs with
    | some (v, r1) =>
      match skipWs r1 with
      | c :: r2 =>
        if c = ',' then
          match parseItemSeq fuel r2 with
          | some (vs, r3) => some (v :: vs, r3)
          | none => none
        else if c = ']' then some ([v], r2)
        else none
      | [] => none
    | none => none

end

/-- Runs the decoder on a segment, with sufficient fuel. -/
def decodeSeg (seg : List Char) : Option (JVal × List Char) :=
  parseVal (2 * seg.length + 2) seg

/-- ASCII lower-casing, for encoding/json's case-insensitive field match. -/
def foldChar (c : Char) : Char :=
  if 'A' ≤ c ∧ c ≤ 'Z' then Char.ofNat (c.toNat + 32) else c

/-- Field-name comparison of encoding/json: exact match or case-folded
match (the three field names here are pairwise distinct under folding, so
the exact-first preference of Go cannot change the outcome). -/
def eqFoldKey (a b : List Char) : Bool :=
  a.map foldChar == b.map foldChar

def valueKey : List Char := ['v', 'a', 'l', 'u', 'e']

def descriptionKey : List Char :=
  ['d', 'e', 's', 'c', 'r', 'i', 'p', 't', 'i', 'o', 'n']

def recommendationKey : List Char :=
  ['r', 'e', 'c', 'o', 'm', 'm', 'e', 'n', 'd', 'a', 't', 'i', 'o', 'n',
   '_', 'o', 'r', 'd', 'e', 'r']

def optionsKey : List Char := ['o', 'p', 't', 'i', 'o', 'n', 's']

/-- Converts a JSON number literal to a Go int: sign and digits only (no
fraction, no exponent — strconv.ParseInt rejects those spellings), within
the int64 range. -/
def intFromLit (lit : List Char) : Option Int :=
  let digits : List Char → Bool := fun ds => !ds.isEmpty && ds.all Char.isDigit
  let toVal : List Char → Int := fun ds =>
    Int.ofNat (ds.foldl (fun acc c => acc * 10 + (c.toNat - 48)) 0)
  match lit with
  | '-' :: ds =>
    if digits ds ∧ -(2 ^ 63) ≤ -toVal ds then some (-toVal ds) else none
  | ds =>
    if digits ds ∧ toVal ds < 2 ^ 63 then some (toVal ds) else none

/-- Applies one JSON object member to a partially decoded optionEntry, per
encoding/json: matching is case-insensitive on the field tag, null leaves
the field untouched, a mismatched type is an error, later duplicates
overwrite earlier ones, unknown members are skipped. -/
def updEntry (e : optionEntry) (k : List Char) (v : JVal) : Option optionEntry :=
  if eqFoldKey k valueKey then
    match v with
    | .jstr s => some { e with value := s }
    | .jnull => some e
    | _ => none
  else if eqFoldKey k descriptionKey then
    match v with
    | .jstr s => some { e with description := s }
    | .jnull => some e
    | _ => none
  else if eqFoldKey k recommendationKey then
    match v with
    | .jnum lit =>
      match intFromLit lit with
      | some n => some { e with recommendationOrder := n }
      | none => none
    | .jnull => some e
    | _ => none
  else some e

def decodeEntryFields : List (List Char × JVal) → optionEntry → Option optionEntry
  | [], e => some e
  | (k, v) :: fs, e =>
    match updEntry e k v with
    | some e2 => decodeEntryFields fs e2
    | none => none

/-- Unmarshals one array element into an optionEntry: an object decodes
field by field from the zero value, null is a no-op on the zero value,
anything else is a type error. -/
def decodeEntry : JVal → Option optionEntry
  | .jobj fs => decodeEntryFields fs ⟨"", "", 0⟩
  | .jnull => some ⟨"", "", 0⟩
  | _ => none

def decodeEntries : List JVal → Option (List optionEntry)
  | [] => some []
  | v :: vs =>
    match decodeEntry v, decodeEntries vs with
    | some e, some es => some (e :: es)
    | _, _ => none

def decodeRespFields : List (List Char × JVal) → List optionEntry →
    Option (List optionEntry)
  | [], cur => some cur
  | (k, v) :: fs, cur =>
    if eqFoldKey k optionsKey then
      match v with
      | .jnull => decodeRespFields fs cur
      | .jarr es =>
        match decodeEntries es with
        | some opts => decodeRespFields fs opts
        | none => none
      | _ => none
    else decodeRespFields fs cur

/-- Unmarshals a decoded JSON value into the Go struct optionResponse,
returning its Options slice; none stands for a decode error. -/
def decodeResp : JVal → Option (List optionEntry)
  | .jobj fs => decodeRespFields fs []
  | .jnull => some []
  | _ => none

/-- Embeds the comparison closure passed to sort.SliceStable in
parseOptions (src/prompt.go lines 41-54).  The closure's final index
comparison i < j only reiterates stability, which the stable sort below
provides, so ties compare as not-less here. -/
def optLess (a b : optionEntry) : Bool :=
  let oi := a.recommendationOrder
  let oj := b.recommendationOrder
  if 0 < oi ∧ 0 < oj ∧ oi ≠ oj then decide (oi < oj)
  else if 0 < oi ∧ oj ≤ 0 then true
  else false

/-- Complement order used to run the stable sort: a may stay before b
exactly when b is not strictly less than a. -/
def optLE (a b : optionEntry) : Prop := optLess b a = false

instance : DecidableRel optLE :=
  fun a b => inferInstanceAs (Decidable (optLess b a = false))

/-- Embeds sort.SliceStable with the closure above: a stable sort placing
an element before another exactly when the other is not strictly less. -/
def sortOpts (l : List optionEntry) : List optionEntry :=
  List.insertionSort optLE l

/-- The literal marker the scan searches for (ten characters, with the
closing quote). -/
def markerChars : List Char :=
  [lbrace, '"', 'o', 'p', 't', 'i', 'o', 'n', 's', '"']

/-- Tests whether the first list is an initial segment of the second. -/
def leadsWith : List Char → List Char → Bool
  | [], _ => true
  | _ :: _, [] => false
  | a :: as, b :: bs => a == b && leadsWith as bs

/-- Offset of the first marker occurrence, as strings.Index. -/
def findIdx : List Char → Option Nat
  | [] => none
  | c :: cs =>
    if leadsWith markerChars (c :: cs) then some 0
    else (findIdx cs).map (· + 1)

/-- One decode attempt of the loop body of parseOptions: decode a single
JSON value at the segment head, unmarshal it as optionResponse, and when
that succeeds with at least one option, sort the options. -/
def tryDecodeSeg (seg : List Char) : Option (List optionEntry) :=
  match decodeSeg seg with
  | some (v, _) =>
    match decodeResp v with
    | some opts => if opts.isEmpty then none else some (sortOpts opts)
    | none => none
  | none => none

/-- The scan loop of parseOptions: find the next marker occurrence, attempt
a decode there, remember the options of the last successful nonempty
decode, and continue searching nine characters past the occurrence.  The
fuel only bounds the iteration count; each iteration removes at least nine
characters, so any fuel above the input length is enough. -/
def scanLoopF : Nat → List Char → List optionEntry → List optionEntry
  | 0, _, acc => acc
  | fuel + 1, s, acc =>
    match findIdx s with
    | none => acc
    | some idx =>
      scanLoopF fuel (s.drop (idx + 9))
        (match tryDecodeSeg (s.drop idx) with
         | some o => o
         | none => acc)

/-- Result of the whole marker scan of parseOptions, started on the raw
input with the empty last-options slice. -/
def markerScan (s : List Char) : List optionEntry :=
  scanLoopF (s.length + 1) s []

/-- Embeds parseOptions of src/prompt.go: the marker scan; a nonempty
remembered slice is returned, otherwise the error is reported. -/
def parseOptions (raw : String) : Except String (List optionEntry) :=
  let res := markerScan raw.data
  if res.isEmpty then Except.error "failed to parse options JSON"
  else Except.ok res

/-- Specification-level predicate: the marker occurs at offset i of s. -/
def occursAtB (s : List Char) (i : Nat) : Bool :=
  leadsWith markerChars (s.drop i)

/-- All marker occurrences of s, in increasing order of offset. -/
def occList (s : List Char) : List Nat :=
  (List.range s.length).filter (occursAtB s)

/-- Declarative description of the scan: attempt a decode at every marker
occurrence in left-to-right order and keep the last success. -/
def lastGood (s : List Char) : Option (List optionEntry) :=
  ((occList s).filterMap (fun i => tryDecodeSeg (s.drop i))).getLast?

/-- Declarative counterpart of parseOptions. -/
def parseOptionsSpec (raw : String) : Except String (List optionEntry) :=
  match lastGood raw.data with
  | some opts => Except.ok opts
  | none => Except.error "failed to parse options JSON"

/-- Splits on newline characters, as strings.Split with a newline
separator: n separators yield n+1 lines. -/
def splitLines : List Char → List (List Char)
  | [] => [[]]
  | c :: cs =>
    if c = '\n' then [] :: splitLines cs
    else
      match splitLines cs with
      | l :: ls => (c :: l) :: ls
      | [] => [[c]]

/-- Parses one line as a complete generic JSON value, in the manner of
json.Unmarshal: one value, with nothing but whitespace after it. -/
def lineParse (line : List Char) : Option JVal :=
  match parseVal (2 * line.length + 2) line with
  | some (v, rest) => if (skipWs rest).isEmpty then some v else none
  | none => none

/-- Handles a value found under an exact options key during the fallback
search: an array of entries is decoded directly (accepted only when
nonempty, then sorted); a string value has the whole extraction procedure
reapplied to it through the reapply argument; anything else is no match. -/
def optionsHit (reapply : List Char → Option (List optionEntry)) :
    JVal → Option (List optionEntry)
  | .jarr es =>
    match decodeEntries es with
    | some opts => if opts.isEmpty then none else some (sortOpts opts)
    | none => none
  | .jstr s => reapply s.data
  | _ => none

mutual

/-- Recursive search of a decoded value for a field named exactly options,
at any nesting depth, depth-first in input order. -/
def searchJV (reapply : List Char → Option (List optionEntry)) :
    JVal → Option (List optionEntry)
  | .jobj fs => searchFields reapply fs
  | .jarr es => searchItems reapply es
  | _ => none

def searchFields (reapply : List Char → Option (List optionEntry)) :
    List (List Char × JVal) → Option (List optionEntry)
  | [] => none
  | (k, v) :: fs =>
    match (if k = optionsKey then optionsHit reapply v else none) with
    | some o => some o
    | none =>
      match searchJV reapply v with
      | some o => some o
      | none => searchFields reapply fs

def searchItems (reapply : List Char → Option (List optionEntry)) :
    List JVal → Option (List optionEntry)
  | [] => none
  | v :: vs =>
    match searchJV reapply v with
    | some o => some o
    | none => searchItems reapply vs

end

/-- Fallback examination of a single line: parse it independently as a
generic structured value and search it recursively. -/
def lineHit (reapply : List Char → Option (List optionEntry))
    (line : List Char) : Option (List optionEntry) :=
  match lineParse line with
  | some v => searchJV reapply v
  | none => none

/-- Modelled from the spec: the extractor extractOptions is called from
ui.go and noninteractive.go but its definition is not among the provided
sources.  Per the spec it runs the marker scan of parseOptions and, when
no occurrence decodes successfully, falls back to a line-oriented scan:
each line is parsed independently, searched recursively for a field named
exactly options (a string-valued field has the whole procedure reapplied
to it), and the first line yielding a nonempty options list wins.  The
fuel bounds the depth of string reapplication, which the spec notes is
naturally bounded by input size. -/
def extractCore : Nat → List Char → Option (List optionEntry)
  | 0, _ => none
  | fuel + 1, s =>
    let first := markerScan s
    if first.isEmpty then
      (splitLines s).findSome? (lineHit (fun cs => extractCore fuel cs))
    else some first

/-- Modelled from the spec: entry point of the full extractor. -/
def extractOptions (raw : String) : Except String (List optionEntry) :=
  match extractCore (raw.data.length + 1) raw.data with
  | some opts => Except.ok opts
  | none => Except.error "failed to parse options JSON"

/-- Embeds the selection logic of runNonInteractive (src/main.go lines
162-168 and src/noninteractive.go lines 57-62): an in-range select index
picks that option, anything else falls back to the first option. -/
def selectValue (opts : List optionEntry) (selectIndex : Int) : String :=
  if 0 ≤ selectIndex ∧ selectIndex < (opts.length : Int) then
    (opts.getD selectIndex.toNat default).value
  else (opts.headD default).value

/-! ### Properties of the sort policy -/

theorem optLess_iff (a b : optionEntry) :
    optLess a b = true ↔
      0 < a.recommendationOrder ∧
        (b.recommendationOrder ≤ 0 ∨
          a.recommendationOrder < b.recommendationOrder) := by
  simp only [optLess]
  split_ifs with h1 h2
  · rw [decide_eq_true_eq]
    omega
  · exact iff_of_true rfl (by omega)
  · exact iff_of_false (by simp) (by omega)

theorem optLE_iff (a b : optionEntry) :
    optLE a b ↔
      ¬(0 < b.recommendationOrder ∧
        (a.recommendationOrder ≤ 0 ∨
          b.recommendationOrder < a.recommendationOrder)) := by
  unfold optLE
  rw [← Bool.not_eq_true, not_iff_not, optLess_iff]

instance : IsTotal optionEntry optLE := by
  constructor
  intro a b
  rw [optLE_iff, optLE_iff]
  omega

instance : IsTrans optionEntry optLE := by
  constructor
  intro a b c hab hbc
  rw [optLE_iff] at hab hbc ⊢
  omega

/-- Entries with the same effective priority: both unset (nonpositive), or
both set and equal. -/
def sameKeyB (x y : optionEntry) : Bool :=
  decide ((x.recommendationOrder ≤ 0 ∧ y.recommendationOrder ≤ 0) ∨
    (0 < x.recommendationOrder ∧
      x.recommendationOrder = y.recommendationOrder))

theorem sameKey_not_less {x a b : optionEntry} (ha : sameKeyB x a = true)
    (hb : sameKeyB x b = true) : optLess b a = false := by
  simp only [sameKeyB, decide_eq_true_eq] at ha hb
  rw [← Bool.not_eq_true, optLess_iff]
  omega

theorem filter_orderedInsert_pos (x a : optionEntry)
    (ha : sameKeyB x a = true) :
    ∀ L : List optionEntry,
      (List.orderedInsert optLE a L).filter (sameKeyB x) =
        a :: L.filter (sameKeyB x) := by
  intro L
  induction L with
  | nil => simp [ha]
  | cons b L ih =>
    by_cases hle : optLE a b
    · simp [List.orderedInsert, hle, ha]
    · have hb : sameKeyB x b = false := by
        by_contra hcontra
        rw [Bool.not_eq_false] at hcontra
        exact hle (sameKey_not_less ha hcontra)
      simp [List.orderedInsert, hle, List.filter_cons, hb, ih]

theorem filter_orderedInsert_neg (x a : optionEntry)
    (ha : sameKeyB x a = false) :
    ∀ L : List optionEntry,
      (List.orderedInsert optLE a L).filter (sameKeyB x) =
        L.filter (sameKeyB x) := by
  intro L
  induction L with
  | nil => simp [ha]
  | cons b L ih =>
    by_cases hle : optLE a b
    · simp [List.orderedInsert, hle, List.filter_cons, ha]
    · simp [List.orderedInsert, hle, List.filter_cons, ih]

/-- Stability of the embedded sort: within each class of equal effective
priority, the output preserves the input order. -/
theorem sortOpts_stable (x : optionEntry) :
    ∀ l : List optionEntry,
      (sortOpts l).filter (sameKeyB x) = l.filter (sameKeyB x) := by
  intro l
  induction l with
  | nil => rfl
  | cons a l ih =>
    show (List.orderedInsert optLE a (sortOpts l)).filter (sameKeyB x) = _
    cases ha : sameKeyB x a with
    | true =>
      rw [filter_orderedInsert_pos x a ha, ih]
      simp [List.filter_cons, ha]
    | false =>
      rw [filter_orderedInsert_neg x a ha, ih]
      simp [List.filter_cons, ha]

theorem sortOpts_sorted (l : List optionEntry) :
    List.Sorted optLE (sortOpts l) :=
  List.sorted_insertionSort optLE l

theorem sortOpts_perm (l : List optionEntry) : (sortOpts l).Perm l :=
  List.perm_insertionSort optLE l

/-! ### Properties of the marker search -/

theorem leadsWith_iff (m : List Char) :
    ∀ s, leadsWith m s = true ↔ ∃ t, s = m ++ t := by
  induction m with
  | nil => intro s; simp [leadsWith]
  | cons a as ih =>
    intro s
    cases s with
    | nil =>
      simp only [leadsWith]
      constructor
      · intro h; cases h
      · rintro ⟨t, ht⟩; cases ht
    | cons b bs =>
      simp only [leadsWith, Bool.and_eq_true, beq_iff_eq, ih]
      constructor
      · rintro ⟨rfl, t, rfl⟩; exact ⟨t, rfl⟩
      · rintro ⟨t, ht⟩
        injection ht with h1 h2
        exact ⟨h1.symm, t, h2⟩

theorem leadsWith_length {m s : List Char} (h : leadsWith m s = true) :
    m.length ≤ s.length := by
  obtain ⟨t, rfl⟩ := (leadsWith_iff m s).1 h
  simp

theorem findIdx_none_occ {s : List Char} (h : findIdx s = none) :
    ∀ i, occursAtB s i = false := by
  induction s with
  | nil =>
    intro i
    simp [occursAtB, markerChars, leadsWith]
  | cons c cs ih =>
    intro i
    rw [findIdx] at h
    split at h
    · cases h
    · next hlead =>
      cases i with
      | zero => simpa [occursAtB] using hlead
      | succ j =>
        have hcs : findIdx cs = none := by
          cases hf : findIdx cs with
          | none => rfl
          | some k => rw [hf] at h; cases h
        simpa [occursAtB] using ih hcs j

theorem findIdx_some_occ {s : List Char} {idx : Nat}
    (h : findIdx s = some idx) :
    occursAtB s idx = true ∧ ∀ j, j < idx → occursAtB s j = false := by
  induction s generalizing idx with
  | nil => cases h
  | cons c cs ih =>
    rw [findIdx] at h
    split at h
    · next hlead =>
      injection h with h0
      subst h0
      constructor
      · simpa [occursAtB] using hlead
      · intro j hj; omega
    · next hlead =>
      cases hf : findIdx cs with
      | none => rw [hf] at h; cases h
      | some k =>
        rw [hf] at h
        injection h with h0
        have h0' : k + 1 = idx := h0
        subst h0'
        obtain ⟨hocc, hmin⟩ := ih hf
        refine ⟨by simpa [occursAtB] using hocc, ?_⟩
        intro j hj
        cases j with
        | zero => simpa [occursAtB] using hlead
        | succ j' =>
          have := hmin j' (by omega)
          simpa [occursAtB] using this

theorem findIdx_some_bound {s : List Char} {idx : Nat}
    (h : findIdx s = some idx) : idx + 10 ≤ s.length := by
  have hocc := (findIdx_some_occ h).1
  have hlen := leadsWith_length hocc
  have hm : markerChars.length = 10 := rfl
  rw [hm, List.length_drop] at hlen
  by_cases hc : idx ≤ s.length
  · omega
  · exfalso
    have hdrop : s.drop idx = [] := List.drop_eq_nil_of_le (by omega)
    rw [occursAtB, hdrop] at hocc
    cases hocc

theorem marker_no_overlap {s : List Char} {idx : Nat}
    (h : occursAtB s idx = true) :
    ∀ p, idx < p → p < idx + 9 → occursAtB s p = false := by
  intro p hlo hhi
  obtain ⟨t, ht⟩ := (leadsWith_iff markerChars (s.drop idx)).1 h
  obtain ⟨k, hk, hk1, hk8⟩ : ∃ k, p = idx + k ∧ 1 ≤ k ∧ k ≤ 8 :=
    ⟨p - idx, by omega, by omega, by omega⟩
  subst hk
  have hdrop : s.drop (idx + k) = markerChars.drop k ++ t := by
    rw [← List.drop_drop, ht, List.drop_append_of_le_length (by
      simp only [markerChars, List.length_cons, List.length_nil]
      omega)]
  rw [occursAtB, hdrop]
  have e1 : (lbrace == '"') = false := by decide
  have e2 : (lbrace == 'o') = false := by decide
  have e3 : (lbrace == 'p') = false := by decide
  have e4 : (lbrace == 't') = false := by decide
  have e5 : (lbrace == 'i') = false := by decide
  have e6 : (lbrace == 'n') = false := by decide
  have e7 : (lbrace == 's') = false := by decide
  interval_cases k <;>
    simp [markerChars, leadsWith, e1, e2, e3, e4, e5, e6, e7]

/-! ### The scan loop examines every occurrence and keeps the last success -/

theorem occList_decomp {s : List Char} {idx : Nat}
    (h : findIdx s = some idx) :
    occList s =
      idx :: (occList (s.drop (idx + 9))).map (fun j => idx + 9 + j) := by
  obtain ⟨hocc, hmin⟩ := findIdx_some_occ h
  have hbound := findIdx_some_bound h
  have hover := marker_no_overlap hocc
  have hsplit : s.length = (idx + 9) + (s.length - (idx + 9)) := by omega
  have hP1 : (List.range (idx + 9)).filter (occursAtB s) = [idx] := by
    rw [List.range_add idx 9, List.filter_append]
    have hA : (List.range idx).filter (occursAtB s) = [] := by
      rw [List.filter_eq_nil_iff]
      intro a ha
      rw [List.mem_range] at ha
      simp [hmin a ha]
    rw [hA, List.filter_map]
    have hr9 : List.range 9 = [0, 1, 2, 3, 4, 5, 6, 7, 8] := rfl
    rw [hr9]
    have g1 : occursAtB s (idx + 1) = false := hover _ (by omega) (by omega)
    have g2 : occursAtB s (idx + 2) = false := hover _ (by omega) (by omega)
    have g3 : occursAtB s (idx + 3) = false := hover _ (by omega) (by omega)
    have g4 : occursAtB s (idx + 4) = false := hover _ (by omega) (by omega)
    have g5 : occursAtB s (idx + 5) = false := hover _ (by omega) (by omega)
    have g6 : occursAtB s (idx + 6) = false := hover _ (by omega) (by omega)
    have g7 : occursAtB s (idx + 7) = false := hover _ (by omega) (by omega)
    have g8 : occursAtB s (idx + 8) = false := hover _ (by omega) (by omega)
    simp [Function.comp, List.filter_cons, hocc,
      g1, g2, g3, g4, g5, g6, g7, g8]
  have hP2 :
      List.filter (occursAtB s)
          (List.map (fun x => idx + 9 + x)
            (List.range (s.length - (idx + 9)))) =
        (occList (s.drop (idx + 9))).map (fun j => idx + 9 + j) := by
    rw [List.filter_map]
    show _ = List.map (fun j => idx + 9 + j)
      (((List.range (s.drop (idx + 9)).length)).filter
        (occursAtB (s.drop (idx + 9))))
    rw [List.length_drop]
    congr 1
    apply List.filter_congr
    intro a _
    show occursAtB s (idx + 9 + a) = occursAtB (s.drop (idx + 9)) a
    rw [occursAtB, occursAtB, List.drop_drop]
  show (List.range s.length).filter (occursAtB s) = _
  rw [hsplit, List.range_add, List.filter_append, hP1, hP2]
  rfl

theorem getLast?_cons_getD (a x : List optionEntry) :
    ∀ l : List (List optionEntry),
      ((a :: l).getLast?).getD x = (l.getLast?).getD a := by
  intro l
  induction l with
  | nil => rfl
  | cons b l _ =>
    rw [List.getLast?_cons_cons]
    have hsome : (b :: l).getLast?.isSome = true :=
      List.getLast?_isSome.2 (by simp)
    obtain ⟨z, hz⟩ := Option.isSome_iff_exists.1 hsome
    rw [hz]
    rfl

theorem tryDecodeSeg_ne_nil {seg : List Char} {o : List optionEntry}
    (h : tryDecodeSeg seg = some o) : o ≠ [] := by
  rw [tryDecodeSeg] at h
  split at h
  · split at h
    · next opts _ =>
      split at h
      · cases h
      · next hne =>
        injection h with h0
        subst h0
        intro hcontra
        have hlen : (sortOpts opts).length = opts.length :=
          List.length_insertionSort optLE opts
        rw [hcontra] at hlen
        simp only [List.length_nil] at hlen
        rw [List.isEmpty_iff_length_eq_zero] at hne
        exact hne (by omega)
    · cases h
  · cases h

theorem getLast?_mem_of_eq {α : Type} :
    ∀ {l : List α} {a : α}, l.getLast? = some a → a ∈ l := by
  intro l
  induction l with
  | nil => intro a h; cases h
  | cons b l ih =>
    intro a h
    cases l with
    | nil =>
      injection h with h0
      subst h0
      exact List.mem_singleton_self b
    | cons c l' =>
      rw [List.getLast?_cons_cons] at h
      exact List.mem_cons_of_mem b (ih h)

theorem scanLoopF_eq_lastGood :
    ∀ (fuel : Nat) (s : List Char) (acc : List optionEntry),
      s.length < fuel →
      scanLoopF fuel s acc =
        (((occList s).filterMap
          (fun i => tryDecodeSeg (s.drop i))).getLast?).getD acc := by
  intro fuel
  induction fuel with
  | zero => intro s acc h; omega
  | succ f ih =>
    intro s acc hlen
    rw [scanLoopF]
    cases hidx : findIdx s with
    | none =>
      have hocc := findIdx_none_occ hidx
      have hnil : occList s = [] := by
        rw [occList, List.filter_eq_nil_iff]
        intro a _
        simp [hocc a]
      rw [hnil]
      rfl
    | some idx =>
      have hbound := findIdx_some_bound hidx
      have hrec : (s.drop (idx + 9)).length < f := by
        rw [List.length_drop]
        omega
      dsimp only
      rw [ih (s.drop (idx + 9)) _ hrec, occList_decomp hidx,
        List.filterMap_cons, List.filterMap_map]
      have hshift :
          (fun i => tryDecodeSeg (s.drop i)) ∘ (fun j => idx + 9 + j) =
            fun j => tryDecodeSeg ((s.drop (idx + 9)).drop j) := by
        funext j
        show tryDecodeSeg (s.drop (idx + 9 + j)) = _
        rw [List.drop_drop]
      rw [hshift]
      cases hdec : tryDecodeSeg (s.drop idx) with
      | none => rfl
      | some o => rw [getLast?_cons_getD]

/-- Claim C1: parseOptions examines every occurrence of the marker in
left-to-right order, attempts a decode at each, silently skips occurrences
that fail to decode or decode to zero options, and returns the options of
the last successfully decoding occurrence; it fails exactly when there is
none. -/
theorem parseOptions_eq_spec (raw : String) :
    parseOptions raw = parseOptionsSpec raw := by
  rw [parseOptions, parseOptionsSpec, lastGood]
  have h := scanLoopF_eq_lastGood (raw.data.length + 1) raw.data []
    (by omega)
  rw [markerScan, h]
  cases hlast :
      ((occList raw.data).filterMap
        (fun i => tryDecodeSeg (raw.data.drop i))).getLast? with
  | none => rfl
  | some o =>
    have hmem : o ∈ (occList raw.data).filterMap
        (fun i => tryDecodeSeg (raw.data.drop i)) :=
      getLast?_mem_of_eq hlast
    obtain ⟨i, _, hdec⟩ := List.mem_filterMap.1 hmem
    have hne := tryDecodeSeg_ne_nil hdec
    have hempty : o.isEmpty = false := by
      rw [← Bool.not_eq_true, List.isEmpty_iff]
      exact hne
    simp [hempty]

/-! ### Remaining facts about the scan loop and the sort -/

/-- Claim C9: each loop iteration either exits or continues on a strictly
shorter suffix (the marker needs ten characters from the occurrence on, so
skipping nine strictly shrinks the input), and no occurrence of the
ten-character marker can start within the nine skipped characters, so no
occurrence is missed. -/
theorem marker_loop_progress {s : List Char} {idx : Nat}
    (h : findIdx s = some idx) :
    (s.drop (idx + 9)).length < s.length ∧
      occursAtB s idx = true ∧
      ∀ p, idx < p → p < idx + 9 → occursAtB s p = false := by
  have hbound := findIdx_some_bound h
  obtain ⟨hocc, _⟩ := findIdx_some_occ h
  exact ⟨by rw [List.length_drop]; omega, hocc, marker_no_overlap hocc⟩

theorem marker_loop_progress_witness :
    (markerChars.drop (0 + 9)).length < markerChars.length ∧
      occursAtB markerChars 0 = true ∧
      ∀ p, 0 < p → p < 0 + 9 → occursAtB markerChars p = false :=
  marker_loop_progress (by decide)

/-- Claim C6: empty or all-whitespace input makes parseOptions fail. -/
theorem parseOptions_ws_fails (raw : String)
    (h : ∀ c ∈ raw.data, isWsChar c = true) :
    parseOptions raw = Except.error "failed to parse options JSON" := by
  have hidx : findIdx raw.data = none := by
    cases hf : findIdx raw.data with
    | none => rfl
    | some idx =>
      exfalso
      obtain ⟨hocc, _⟩ := findIdx_some_occ hf
      obtain ⟨t, ht⟩ := (leadsWith_iff markerChars _).1 hocc
      have hmem : lbrace ∈ raw.data := by
        apply List.mem_of_mem_drop (n := idx)
        rw [ht]
        simp [markerChars]
      exact absurd (h lbrace hmem) (by decide)
  have hscan : markerScan raw.data = [] := by
    rw [markerScan, scanLoopF, hidx]
  rw [parseOptions]
  simp [hscan]

theorem parseOptions_ws_fails_witness :
    parseOptions " \n\t \u000d" =
      Except.error "failed to parse options JSON" :=
  parseOptions_ws_fails " \n\t \u000d" (by decide)

/-- Claim C7: the embedded sort is idempotent. -/
theorem sortOpts_idempotent (l : List optionEntry) :
    sortOpts (sortOpts l) = sortOpts l :=
  List.Sorted.insertionSort_eq (sortOpts_sorted l)

theorem tryDecodeSeg_pairwise {seg : List Char} {o : List optionEntry}
    (h : tryDecodeSeg seg = some o) : o.Pairwise optLE := by
  rw [tryDecodeSeg] at h
  split at h
  · split at h
    · next opts _ =>
      split at h
      · cases h
      · injection h with h0
        subst h0
        exact sortOpts_sorted opts
    · cases h
  · cases h

theorem scanLoopF_pairwise :
    ∀ (fuel : Nat) (s : List Char) (acc : List optionEntry),
      acc.Pairwise optLE → (scanLoopF fuel s acc).Pairwise optLE := by
  intro fuel
  induction fuel with
  | zero => intro s acc h; exact h
  | succ f ih =>
    intro s acc hacc
    rw [scanLoopF]
    cases hidx : findIdx s with
    | none => exact hacc
    | some idx =>
      dsimp only
      apply ih
      cases hdec : tryDecodeSeg (s.drop idx) with
      | none => exact hacc
      | some o =>
        dsimp only
        exact tryDecodeSeg_pairwise hdec

theorem parseOptions_ok_pairwise {raw : String} {opts : List optionEntry}
    (h : parseOptions raw = Except.ok opts) : opts.Pairwise optLE := by
  rw [parseOptions] at h
  split at h
  · cases h
  · injection h with h0
    subst h0
    exact scanLoopF_pairwise _ _ [] List.Pairwise.nil

/-- Claim C3: every successfully extracted list is ordered by the sort
policy (a positive recommendation order beats a nonpositive one regardless
of magnitude, two positives compare ascending), the sort is a stable
permutation (entries of equal effective priority keep their input order),
and the spec's concrete example sorts as stated. -/
theorem sort_policy :
    (∀ (raw : String) (opts : List optionEntry),
      parseOptions raw = Except.ok opts →
      opts.Pairwise (fun a b =>
        (0 < b.recommendationOrder → 0 < a.recommendationOrder) ∧
        (0 < a.recommendationOrder → 0 < b.recommendationOrder →
          a.recommendationOrder ≤ b.recommendationOrder))) ∧
    (∀ l : List optionEntry, (sortOpts l).Perm l ∧
      ∀ x, (sortOpts l).filter (sameKeyB x) = l.filter (sameKeyB x)) ∧
    sortOpts [⟨"A", "", 0⟩, ⟨"B", "", 0⟩, ⟨"C", "", 1⟩] =
      [⟨"C", "", 1⟩, ⟨"A", "", 0⟩, ⟨"B", "", 0⟩] := by
  refine ⟨?_, fun l => ⟨sortOpts_perm l, fun x => sortOpts_stable x l⟩,
    by decide⟩
  intro raw opts h
  apply (parseOptions_ok_pairwise h).imp
  intro a b hab
  rw [optLE_iff] at hab
  omega

set_option maxRecDepth 8000 in
theorem sort_policy_witness :
    ([⟨"early", "d", 1⟩, ⟨"late", "d", 2⟩, ⟨"unsorted", "d", 0⟩] :
        List optionEntry).Pairwise (fun a b =>
      (0 < b.recommendationOrder → 0 < a.recommendationOrder) ∧
      (0 < a.recommendationOrder → 0 < b.recommendationOrder →
        a.recommendationOrder ≤ b.recommendationOrder)) := by
  have h :=
    sort_policy.1
      "\x7b\"options\":[\x7b\"value\":\"late\",\"description\":\"d\",\"recommendation_order\":2\x7d,\x7b\"value\":\"early\",\"description\":\"d\",\"recommendation_order\":1\x7d,\x7b\"value\":\"unsorted\",\"description\":\"d\",\"recommendation_order\":0\x7d]\x7d"
      [⟨"early", "d", 1⟩, ⟨"late", "d", 2⟩, ⟨"unsorted", "d", 0⟩]
      (by rfl)
  exact h

/-- Claim C8: parseOptions is a pure function of its input string; two
invocations on equal inputs give equal results (the embedding is a total
function, so the computation performs no input or output and touches no
shared state). -/
theorem parseOptions_deterministic (raw1 raw2 : String) (h : raw1 = raw2) :
    parseOptions raw1 = parseOptions raw2 := by
  rw [h]

theorem parseOptions_deterministic_witness :
    parseOptions "same input" = parseOptions "same input" :=
  parseOptions_deterministic "same input" "same input" rfl

/-- Claim C10: with a nonempty extracted list, an out-of-range select
index (negative, or at least the length) selects the first option's value
rather than erroring, and an in-range index selects exactly the option at
that index. -/
theorem selectValue_spec (opts : List optionEntry) (i : Int)
    (hne : opts ≠ []) :
    (¬(0 ≤ i ∧ i < (opts.length : Int)) →
      selectValue opts i = (opts.head hne).value) ∧
    ∀ h : 0 ≤ i ∧ i < (opts.length : Int),
      selectValue opts i = (opts.get ⟨i.toNat, by omega⟩).value := by
  constructor
  · intro h
    rw [selectValue, if_neg h]
    cases opts with
    | nil => exact absurd rfl hne
    | cons a l => rfl
  · intro h
    rw [selectValue, if_pos h, List.get_eq_getElem,
      List.getD_eq_getElem opts default (by omega)]

/-! ### The decoder reads one value and ignores what follows -/

theorem skipWs_length : ∀ cs : List Char, (skipWs cs).length ≤ cs.length := by
  intro cs
  induction cs with
  | nil => exact Nat.le_refl 0
  | cons c cs ih =>
    rw [skipWs]
    split
    · exact Nat.le_succ_of_le ih
    · exact Nat.le_refl _

theorem skipWs_append {cs r : List Char} {c : Char}
    (h : skipWs cs = c :: r) :
    ∀ t, skipWs (cs ++ t) = c :: (r ++ t) := by
  induction cs with
  | nil => cases h
  | cons a cs ih =>
    intro t
    rw [skipWs] at h
    rw [List.cons_append, skipWs]
    split
    · next hws =>
      rw [if_pos hws] at h
      exact ih h t
    · next hws =>
      rw [if_neg hws] at h
      injection h with h1 h2
      rw [h1, h2]

theorem selectValue_spec_witness :
    selectValue [⟨"a", "", 0⟩, ⟨"b", "", 0⟩] 5 = "a" ∧
      selectValue [⟨"a", "", 0⟩, ⟨"b", "", 0⟩] 1 = "b" := by
  constructor
  · exact ((selectValue_spec [⟨"a", "", 0⟩, ⟨"b", "", 0⟩] 5
      (by decide)).1 (by decide)).trans rfl
  · exact ((selectValue_spec [⟨"a", "", 0⟩, ⟨"b", "", 0⟩] 1
      (by decide)).2 ⟨by decide, by decide⟩).trans rfl

theorem parseStringBody_len_aux :
    ∀ (n : Nat) (cs : List Char), cs.length ≤ n → ∀ {x r : List Char},
      parseStringBody cs = some (x, r) → r.length < cs.length := by
  intro n
  induction n with
  | zero =>
    intro cs hn x r h
    have hcs : cs = [] := List.length_eq_zero.1 (by omega)
    subst hcs
    exact Option.noConfusion h
  | succ n ih =>
    intro cs hn x r h
    cases cs with
    | nil => exact Option.noConfusion h
    | cons c cs =>
      rw [parseStringBody.eq_def] at h
      dsimp only at h
      split at h
      · injection h with h0
        injection h0 with hA hB
        subst hB
        simp
      · split at h
        · split at h
          · split at h
            · split at h
              · rename_i content r0 heq
                injection h with h0
                injection h0 with hA2 hB2
                subst hB2
                have hrec := ih _ (by
                  simp only [List.length_cons] at hn
                  omega) heq
                simp only [List.length_cons] at hn ⊢
                omega
              · exact Option.noConfusion h
            · exact Option.noConfusion h
          · split at h
            · split at h
              · rename_i content r0 heq
                injection h with h0
                injection h0 with hA2 hB2
                subst hB2
                have hrec := ih _ (by
                  simp only [List.length_cons] at hn
                  omega) heq
                simp only [List.length_cons] at hn ⊢
                omega
              · exact Option.noConfusion h
            · exact Option.noConfusion h
          · exact Option.noConfusion h
        · split at h
          · exact Option.noConfusion h
          · split at h
            · rename_i content r0 heq
              injection h with h0
              injection h0 with hA2 hB2
              subst hB2
              have hrec := ih _ (by
                simp only [List.length_cons] at hn
                omega) heq
              simp only [List.length_cons] at hn ⊢
              omega
            · exact Option.noConfusion h

theorem parseStringBody_app_aux :
    ∀ (n : Nat) (cs : List Char), cs.length ≤ n → ∀ {x r : List Char},
      parseStringBody cs = some (x, r) → ∀ t,
      parseStringBody (cs ++ t) = some (x, r ++ t) := by
  intro n
  induction n with
  | zero =>
    intro cs hn x r h t
    have hcs : cs = [] := List.length_eq_zero.1 (by omega)
    subst hcs
    exact Option.noConfusion h
  | succ n ih =>
    intro cs hn x r h t
    cases cs with
    | nil => exact Option.noConfusion h
    | cons c cs =>
      rw [parseStringBody.eq_def] at h
      dsimp only at h
      rw [List.cons_append, parseStringBody.eq_def]
      dsimp only
      split at h
      · rename_i hq
        injection h with h0
        injection h0 with hA hB
        subst hA
        subst hB
        rw [if_pos hq]
      · rename_i hq
        rw [if_neg hq]
        split at h
        · rename_i hb
          rw [if_pos hb]
          split at h
          · split at h
            · split at h
              · rename_i v1 v2 v3 v4 e1 e2 e3 e4 dx content r0 heq
                injection h with h0
                injection h0 with hA2 hB2
                subst hA2
                subst hB2
                simp only [List.cons_append]
                rw [e1, e2, e3, e4]
                dsimp only
                rw [ih _ (by simp only [List.length_cons] at hn; omega) heq t]
              · exact Option.noConfusion h
            · exact Option.noConfusion h
          · split at h
            · split at h
              · rename_i csv e cs2 hshape dx1 ch hesc dx2 content r0 heq
                injection h with h0
                injection h0 with hA2 hB2
                subst hA2
                subst hB2
                have hu : e ≠ 'u' := by
                  intro hcontra
                  subst hcontra
                  rw [show escChar 'u' = none from rfl] at hesc
                  exact Option.noConfusion hesc
                simp only [List.cons_append]
                split
                · rename_i heqpat
                  exfalso
                  injection heqpat with hh1 hh2
                  exact hu hh1
                · rename_i E CS2 heqpat
                  injection heqpat with hh1 hh2
                  subst hh1
                  subst hh2
                  rw [hesc]
                  dsimp only
                  rw [ih _ (by simp only [List.length_cons] at hn; omega) heq t]
                · rename_i heqpat
                  exact absurd heqpat (by simp)
              · exact Option.noConfusion h
            · exact Option.noConfusion h
          · exact Option.noConfusion h
        · rename_i hb
          rw [if_neg hb]
          split at h
          · exact Option.noConfusion h
          · rename_i hctl
            rw [if_neg hctl]
            split at h
            · rename_i content r0 heq
              injection h with h0
              injection h0 with hA2 hB2
              subst hA2
              subst hB2
              rw [ih _ (by simp only [List.length_cons] at hn; omega) heq t]
            · exact Option.noConfusion h


theorem spanDigits_length : ∀ cs : List Char, (spanDigits cs).2.length ≤ cs.length := by
  intro cs
  induction cs with
  | nil => exact Nat.le_refl 0
  | cons c cs ih =>
    rw [spanDigits]
    split
    · exact Nat.le_succ_of_le ih
    · simp

theorem spanDigits_append :
    ∀ {cs ds r : List Char}, spanDigits cs = (ds, r) → r ≠ [] → ∀ t,
      spanDigits (cs ++ t) = (ds, r ++ t) := by
  intro cs
  induction cs with
  | nil =>
    intro ds r h hne t
    rw [spanDigits] at h
    injection h with h1 h2
    exact absurd h2.symm hne
  | cons c cs ih =>
    intro ds r h hne t
    rw [spanDigits] at h
    rw [List.cons_append, spanDigits]
    split at h
    · rename_i hdig
      rw [if_pos hdig]
      split at h
      rename_i ds0 r0 heq
      injection h with h1 h2
      subst h1
      subst h2
      rw [ih heq hne t]
    · rename_i hdig
      rw [if_neg hdig]
      injection h with h1 h2
      subst h1
      subst h2
      rfl


theorem parseIntPart_length :
    ∀ {cs ip r : List Char}, parseIntPart cs = some (ip, r) →
      r.length < cs.length := by
  intro cs ip r h
  cases cs with
  | nil => exact Option.noConfusion h
  | cons c cs =>
    rw [parseIntPart] at h
    split at h
    · injection h with h0
      injection h0 with h1 h2
      subst h2
      simp
    · split at h
      · split at h
        rename_i ds r0 heq
        injection h with h0
        injection h0 with h1 h2
        subst h2
        have hsp := spanDigits_length cs
        rw [heq] at hsp
        dsimp only at hsp
        simp only [List.length_cons]
        omega
      · exact Option.noConfusion h

theorem parseIntPart_append :
    ∀ {cs ip r : List Char}, parseIntPart cs = some (ip, r) → r ≠ [] → ∀ t,
      parseIntPart (cs ++ t) = some (ip, r ++ t) := by
  intro cs ip r h hne t
  cases cs with
  | nil => exact Option.noConfusion h
  | cons c cs =>
    rw [parseIntPart] at h
    rw [List.cons_append, parseIntPart]
    split at h
    · rename_i hc
      rw [if_pos hc]
      injection h with h0
      injection h0 with h1 h2
      subst h1
      subst h2
      rfl
    · rename_i hc
      rw [if_neg hc]
      split at h
      · rename_i hdig
        rw [if_pos hdig]
        split at h
        rename_i ds r0 heq
        injection h with h0
        injection h0 with h1 h2
        subst h1
        subst h2
        rw [spanDigits_append heq hne t]
      · exact Option.noConfusion h
theorem parseFrac_length :
    ∀ {cs fp r : List Char}, parseFrac cs = some (fp, r) →
      r.length ≤ cs.length := by
  intro cs fp r h
  cases cs with
  | nil =>
    rw [parseFrac] at h
    injection h with h0
    injection h0 with h1 h2
    subst h2
    exact Nat.le_refl 0
  | cons c cs =>
    rw [parseFrac] at h
    split at h
    · split at h
      · exact Option.noConfusion h
      · rename_i ds r0 hpat heq
        injection h with h0
        injection h0 with h1 h2
        subst h2
        have hsp := spanDigits_length cs
        rw [heq] at hsp
        dsimp only at hsp
        simp only [List.length_cons]
        omega
    · injection h with h0
      injection h0 with h1 h2
      subst h2
      simp

theorem parseFrac_append :
    ∀ {cs fp r : List Char}, parseFrac cs = some (fp, r) → r ≠ [] → ∀ t,
      parseFrac (cs ++ t) = some (fp, r ++ t) := by
  intro cs fp r h hne t
  cases cs with
  | nil =>
    rw [parseFrac] at h
    injection h with h0
    injection h0 with h1 h2
    exact absurd h2.symm hne
  | cons c cs =>
    rw [parseFrac] at h
    rw [List.cons_append, parseFrac]
    split at h
    · rename_i hc
      rw [if_pos hc]
      split at h
      · exact Option.noConfusion h
      · rename_i ds r0 hpat heq
        injection h with h0
        injection h0 with h1 h2
        subst h1
        subst h2
        rw [spanDigits_append heq hne t]
        have hds : ds ≠ [] := by
          intro hcontra
          subst hcontra
          exact hpat rfl
        cases ds with
        | nil => exact absurd rfl hds
        | cons d ds' => rfl
    · rename_i hc
      rw [if_neg hc]
      injection h with h0
      injection h0 with h1 h2
      subst h1
      subst h2
      rfl
theorem parseExp_length :
    ∀ {cs ep r : List Char}, parseExp cs = some (ep, r) →
      r.length ≤ cs.length := by
  intro cs ep r h
  cases cs with
  | nil =>
    rw [parseExp.eq_def] at h
    dsimp only at h
    injection h with h0
    injection h0 with h1 h2
    subst h2
    exact Nat.le_refl 0
  | cons c cs =>
    rw [parseExp.eq_def] at h
    dsimp only at h
    split at h
    · cases cs with
      | nil =>
        dsimp only at h
        exact Option.noConfusion h
      | cons s cs' =>
        dsimp only at h
        split at h
        · split at h
          · exact Option.noConfusion h
          · rename_i ds r0 hpat heq
            injection h with h0
            injection h0 with h1 h2
            subst h2
            have hsp := spanDigits_length cs'
            rw [heq] at hsp
            dsimp only at hsp
            simp only [List.length_cons]
            omega
        · split at h
          · exact Option.noConfusion h
          · rename_i ds r0 hpat heq
            injection h with h0
            injection h0 with h1 h2
            subst h2
            have hsp := spanDigits_length (s :: cs')
            rw [heq] at hsp
            dsimp only at hsp
            simp only [List.length_cons] at hsp ⊢
            omega
    · injection h with h0
      injection h0 with h1 h2
      subst h2
      simp

theorem parseExp_append :
    ∀ {cs ep r : List Char}, parseExp cs = some (ep, r) → r ≠ [] → ∀ t,
      parseExp (cs ++ t) = some (ep, r ++ t) := by
  intro cs ep r h hne t
  cases cs with
  | nil =>
    rw [parseExp.eq_def] at h
    dsimp only at h
    injection h with h0
    injection h0 with h1 h2
    exact absurd h2.symm hne
  | cons c cs =>
    rw [parseExp.eq_def] at h
    dsimp only at h
    rw [List.cons_append, parseExp.eq_def]
    dsimp only
    split at h
    · rename_i hc
      rw [if_pos hc]
      cases cs with
      | nil =>
        dsimp only at h
        exact Option.noConfusion h
      | cons s cs' =>
        dsimp only at h
        rw [List.cons_append]
        dsimp only
        split at h
        · rename_i hs
          rw [if_pos hs]
          split at h
          · exact Option.noConfusion h
          · rename_i ds r0 hpat heq
            injection h with h0
            injection h0 with h1 h2
            subst h1
            subst h2
            rw [spanDigits_append heq hne t]
            have hds : ds ≠ [] := by
              intro hcontra
              subst hcontra
              exact hpat rfl
            cases ds with
            | nil => exact absurd rfl hds
            | cons d ds' => rfl
        · rename_i hs
          rw [if_neg hs]
          split at h
          · exact Option.noConfusion h
          · rename_i ds r0 hpat heq
            injection h with h0
            injection h0 with h1 h2
            subst h1
            subst h2
            rw [show s :: (cs' ++ t) = (s :: cs') ++ t from rfl,
              spanDigits_append heq hne t]
            have hds : ds ≠ [] := by
              intro hcontra
              subst hcontra
              exact hpat rfl
            cases ds with
            | nil => exact absurd rfl hds
            | cons d ds' => rfl
    · rename_i hc
      rw [if_neg hc]
      injection h with h0
      injection h0 with h1 h2
      subst h1
      subst h2
      rfl
theorem parseNumber_length :
    ∀ {cs lit r : List Char}, parseNumber cs = some (lit, r) →
      r.length < cs.length := by
  intro cs lit r h
  rw [parseNumber.eq_def] at h
  split at h
  · rename_i cs'
    split at h
    · rename_i p1 ip r1 hip
      split at h
      · rename_i p2 fp r2 hfp
        split at h
        · rename_i p3 ep r3 hep
          injection h with h0
          injection h0 with h1 h2
          subst h2
          have l1 := parseIntPart_length hip
          have l2 := parseFrac_length hfp
          have l3 := parseExp_length hep
          simp only [List.length_cons]
          omega
        · exact Option.noConfusion h
      · exact Option.noConfusion h
    · exact Option.noConfusion h
  · split at h
    · rename_i p1 ip r1 hip
      split at h
      · rename_i p2 fp r2 hfp
        split at h
        · rename_i p3 ep r3 hep
          injection h with h0
          injection h0 with h1 h2
          subst h2
          have l1 := parseIntPart_length hip
          have l2 := parseFrac_length hfp
          have l3 := parseExp_length hep
          omega
        · exact Option.noConfusion h
      · exact Option.noConfusion h
    · exact Option.noConfusion h

theorem parseFrac_ne_nil {cs fp r : List Char}
    (h : parseFrac cs = some (fp, r)) (hne : r ≠ []) : cs ≠ [] := by
  intro hcontra
  subst hcontra
  rw [parseFrac] at h
  injection h with h0
  injection h0 with h1 h2
  exact hne h2.symm

theorem parseExp_ne_nil {cs ep r : List Char}
    (h : parseExp cs = some (ep, r)) (hne : r ≠ []) : cs ≠ [] := by
  intro hcontra
  subst hcontra
  rw [parseExp.eq_def] at h
  dsimp only at h
  injection h with h0
  injection h0 with h1 h2
  exact hne h2.symm

theorem parseNumber_append :
    ∀ {cs lit r : List Char}, parseNumber cs = some (lit, r) → r ≠ [] →
      ∀ t, parseNumber (cs ++ t) = some (lit, r ++ t) := by
  intro cs lit r h hne t
  rw [parseNumber.eq_def] at h
  rw [parseNumber.eq_def]
  split at h
  · rename_i cs'
    rw [List.cons_append]
    split at h
    · rename_i p1 ip r1 hip
      split at h
      · rename_i p2 fp r2 hfp
        split at h
        · rename_i p3 ep r3 hep
          injection h with h0
          injection h0 with h1 h2
          subst h1
          subst h2
          have hr2 : r2 ≠ [] := by
            intro hc
            subst hc
            exact absurd (parseExp_ne_nil hep hne) (fun hf => hf rfl)
          have hr1 : r1 ≠ [] := by
            intro hc
            subst hc
            exact absurd (parseFrac_ne_nil hfp hr2) (fun hf => hf rfl)
          split
          · rename_i cs2 heqpat
            injection heqpat with hh1 hh2
            subst hh2
            rw [parseIntPart_append hip hr1 t]
            dsimp only
            rw [parseFrac_append hfp hr2 t]
            dsimp only
            rw [parseExp_append hep hne t]
          · rename_i hshape2
            exact absurd (hshape2 (cs' ++ t) rfl) not_false
        · exact Option.noConfusion h
      · exact Option.noConfusion h
    · exact Option.noConfusion h
  · rename_i hshape
    split at h
    · rename_i p1 ip r1 hip
      split at h
      · rename_i p2 fp r2 hfp
        split at h
        · rename_i p3 ep r3 hep
          injection h with h0
          injection h0 with h1 h2
          subst h1
          subst h2
          have hr2 : r2 ≠ [] := by
            intro hc
            subst hc
            exact absurd (parseExp_ne_nil hep hne) (fun hf => hf rfl)
          have hr1 : r1 ≠ [] := by
            intro hc
            subst hc
            exact absurd (parseFrac_ne_nil hfp hr2) (fun hf => hf rfl)
          split
          · rename_i cs2 heqpat
            exfalso
            cases cs with
            | nil => exact Option.noConfusion (hip.symm.trans (by rw [parseIntPart]))
            | cons c0 cs0 =>
              rw [List.cons_append] at heqpat
              injection heqpat with hh1 hh2
              exact hshape cs0 (by rw [hh1])
          · rw [parseIntPart_append hip hr1 t]
            dsimp only
            rw [parseFrac_append hfp hr2 t]
            dsimp only
            rw [parseExp_append hep hne t]
        · exact Option.noConfusion h
      · exact Option.noConfusion h
    · exact Option.noConfusion h
theorem matchKw_length :
    ∀ (ks cs r : List Char), matchKw ks cs = some r →
      r.length + ks.length = cs.length := by
  intro ks
  induction ks with
  | nil =>
    intro cs r h
    rw [matchKw] at h
    injection h with h0
    subst h0
    simp
  | cons k ks ih =>
    intro cs r h
    cases cs with
    | nil => exact Option.noConfusion h
    | cons c cs =>
      rw [matchKw] at h
      split at h
      · have := ih cs r h
        simp only [List.length_cons]
        omega
      · exact Option.noConfusion h

theorem matchKw_append :
    ∀ (ks cs r : List Char), matchKw ks cs = some r → ∀ t,
      matchKw ks (cs ++ t) = some (r ++ t) := by
  intro ks
  induction ks with
  | nil =>
    intro cs r h t
    rw [matchKw] at h
    injection h with h0
    subst h0
    rfl
  | cons k ks ih =>
    intro cs r h t
    cases cs with
    | nil => exact Option.noConfusion h
    | cons c cs =>
      rw [matchKw] at h
      rw [List.cons_append, matchKw]
      split at h
      · rename_i hc
        rw [if_pos hc]
        exact ih cs r h t
      · exact Option.noConfusion h
theorem parseStringBody_length {cs x r : List Char}
    (h : parseStringBody cs = some (x, r)) : r.length < cs.length :=
  parseStringBody_len_aux cs.length cs (Nat.le_refl _) h

theorem parseStringBody_append {cs x r : List Char}
    (h : parseStringBody cs = some (x, r)) (t : List Char) :
    parseStringBody (cs ++ t) = some (x, r ++ t) :=
  parseStringBody_app_aux cs.length cs (Nat.le_refl _) h t

theorem skipWs_cons_length {cs r : List Char} {c : Char}
    (h : skipWs cs = c :: r) : r.length + 1 ≤ cs.length := by
  have := skipWs_length cs
  rw [h] at this
  simp only [List.length_cons] at this
  omega

theorem parse_length : ∀ fuel : Nat,
    (∀ cs v r, parseVal fuel cs = some (v, r) → r.length < cs.length) ∧
    (∀ cs ps r, parsePairSeq fuel cs = some (ps, r) → r.length < cs.length) ∧
    (∀ cs vs r, parseItemSeq fuel cs = some (vs, r) → r.length < cs.length) := by
  intro fuel
  induction fuel with
  | zero =>
    refine ⟨?_, ?_, ?_⟩ <;> intro cs a r h <;> exact Option.noConfusion h
  | succ f ih =>
    obtain ⟨ihv, ihp, ihi⟩ := ih
    refine ⟨?_, ?_, ?_⟩
    · intro cs v r h
      rw [parseVal.eq_def] at h
      dsimp only at h
      split at h
      · exact Option.noConfusion h
      · rename_i c rest hws
        have hws1 := skipWs_cons_length hws
        split at h
        · -- object
          split at h
          · rename_i c2 rest2 hws2
            have hws2l := skipWs_cons_length hws2
            split at h
            · injection h with h0
              injection h0 with h1 h2
              subst h2
              omega
            · split at h
              · rename_i fs r0 heq
                injection h with h0
                injection h0 with h1 h2
                subst h2
                have := ihp rest fs r0 heq
                omega
              · exact Option.noConfusion h
          · exact Option.noConfusion h
        · split at h
          · -- array
            split at h
            · rename_i c2 rest2 hws2
              have hws2l := skipWs_cons_length hws2
              split at h
              · injection h with h0
                injection h0 with h1 h2
                subst h2
                omega
              · split at h
                · rename_i vs r0 heq
                  injection h with h0
                  injection h0 with h1 h2
                  subst h2
                  have := ihi rest vs r0 heq
                  omega
                · exact Option.noConfusion h
            · exact Option.noConfusion h
          · split at h
            · -- string
              split at h
              · rename_i content r0 heq
                injection h with h0
                injection h0 with h1 h2
                subst h2
                have := parseStringBody_length heq
                omega
              · exact Option.noConfusion h
            · split at h
              · -- true
                split at h
                · rename_i r0 heq
                  injection h with h0
                  injection h0 with h1 h2
                  subst h2
                  have := matchKw_length _ _ _ heq
                  simp only [List.length_cons] at this
                  omega
                · exact Option.noConfusion h
              · split at h
                · -- false
                  split at h
                  · rename_i r0 heq
                    injection h with h0
                    injection h0 with h1 h2
                    subst h2
                    have := matchKw_length _ _ _ heq
                    simp only [List.length_cons] at this
                    omega
                  · exact Option.noConfusion h
                · split at h
                  · -- null
                    split at h
                    · rename_i r0 heq
                      injection h with h0
                      injection h0 with h1 h2
                      subst h2
                      have := matchKw_length _ _ _ heq
                      simp only [List.length_cons] at this
                      omega
                    · exact Option.noConfusion h
                  · -- number
                    split at h
                    · rename_i lit r0 heq
                      injection h with h0
                      injection h0 with h1 h2
                      subst h2
                      have := parseNumber_length heq
                      simp only [List.length_cons] at this
                      omega
                    · exact Option.noConfusion h
    · intro cs ps r h
      rw [parsePairSeq.eq_def] at h
      dsimp only at h
      split at h
      · rename_i rest hws
        have hws1 := skipWs_cons_length hws
        split at h
        · rename_i key r1 hsb
          have hsb1 := parseStringBody_length hsb
          split at h
          · rename_i r2 hws2
            have hws2l := skipWs_cons_length hws2
            split at h
            · rename_i v r3 hv
              have hv1 := ihv r2 v r3 hv
              split at h
              · rename_i c r4 hws3
                have hws3l := skipWs_cons_length hws3
                split at h
                · split at h
                  · rename_i ps0 r5 heq
                    injection h with h0
                    injection h0 with h1 h2
                    subst h2
                    have := ihp r4 ps0 r5 heq
                    omega
                  · exact Option.noConfusion h
                · split at h
                  · injection h with h0
                    injection h0 with h1 h2
                    subst h2
                    omega
                  · exact Option.noConfusion h
              · exact Option.noConfusion h
            · exact Option.noConfusion h
          · exact Option.noConfusion h
        · exact Option.noConfusion h
      · exact Option.noConfusion h
    · intro cs vs r h
      rw [parseItemSeq.eq_def] at h
      dsimp only at h
      split at h
      · rename_i v r1 hv
        have hv1 := ihv cs v r1 hv
        split at h
        · rename_i c r2 hws
          have hws1 := skipWs_cons_length hws
          split at h
          · split at h
            · rename_i vs0 r3 heq
              injection h with h0
              injection h0 with h1 h2
              subst h2
              have := ihi r2 vs0 r3 heq
              omega
            · exact Option.noConfusion h
          · split at h
            · injection h with h0
              injection h0 with h1 h2
              subst h2
              omega
            · exact Option.noConfusion h
        · exact Option.noConfusion h
      · exact Option.noConfusion h
theorem skipWs_ne_nil {cs r : List Char} {c : Char}
    (h : skipWs cs = c :: r) : cs ≠ [] := by
  intro hc
  subst hc
  rw [skipWs] at h
  cases h

theorem parse_append : ∀ fuel : Nat,
    (∀ cs v r t, parseVal fuel cs = some (v, r) →
      (∀ lit, v = JVal.jnum lit → r ≠ []) →
      parseVal fuel (cs ++ t) = some (v, r ++ t)) ∧
    (∀ cs ps r t, parsePairSeq fuel cs = some (ps, r) →
      parsePairSeq fuel (cs ++ t) = some (ps, r ++ t)) ∧
    (∀ cs vs r t, parseItemSeq fuel cs = some (vs, r) →
      parseItemSeq fuel (cs ++ t) = some (vs, r ++ t)) := by
  intro fuel
  induction fuel with
  | zero =>
    refine ⟨?_, ?_, ?_⟩ <;> intro cs a r t h <;>
      exact Option.noConfusion h
  | succ f ih =>
    obtain ⟨ihv, ihp, ihi⟩ := ih
    refine ⟨?_, ?_, ?_⟩
    · intro cs v r t h hnum
      rw [parseVal.eq_def] at h
      dsimp only at h
      rw [parseVal.eq_def]
      dsimp only
      split at h
      · exact Option.noConfusion h
      · rename_i c rest hws
        rw [skipWs_append hws t]
        dsimp only
        split at h
        · rename_i hc
          rw [if_pos hc]
          split at h
          · rename_i c2 rest2 hws2
            rw [skipWs_append hws2 t]
            dsimp only
            split at h
            · rename_i hc2
              rw [if_pos hc2]
              injection h with h0
              injection h0 with h1 h2
              subst h1
              subst h2
              rfl
            · rename_i hc2
              rw [if_neg hc2]
              split at h
              · rename_i fs r0 heq
                injection h with h0
                injection h0 with h1 h2
                subst h1
                subst h2
                rw [ihp rest fs r0 t heq]
              · exact Option.noConfusion h
          · exact Option.noConfusion h
        · rename_i hc
          rw [if_neg hc]
          split at h
          · rename_i hc2
            rw [if_pos hc2]
            split at h
            · rename_i c2 rest2 hws2
              rw [skipWs_append hws2 t]
              dsimp only
              split at h
              · rename_i hc3
                rw [if_pos hc3]
                injection h with h0
                injection h0 with h1 h2
                subst h1
                subst h2
                rfl
              · rename_i hc3
                rw [if_neg hc3]
                split at h
                · rename_i vs r0 heq
                  injection h with h0
                  injection h0 with h1 h2
                  subst h1
                  subst h2
                  rw [ihi rest vs r0 t heq]
                · exact Option.noConfusion h
            · exact Option.noConfusion h
          · rename_i hc2
            rw [if_neg hc2]
            split at h
            · rename_i hc3
              rw [if_pos hc3]
              split at h
              · rename_i content r0 heq
                injection h with h0
                injection h0 with h1 h2
                subst h1
                subst h2
                rw [parseStringBody_append heq t]
              · exact Option.noConfusion h
            · rename_i hc3
              rw [if_neg hc3]
              split at h
              · rename_i hc4
                rw [if_pos hc4]
                split at h
                · rename_i r0 heq
                  injection h with h0
                  injection h0 with h1 h2
                  subst h1
                  subst h2
                  rw [matchKw_append _ _ _ heq t]
                · exact Option.noConfusion h
              · rename_i hc4
                rw [if_neg hc4]
                split at h
                · rename_i hc5
                  rw [if_pos hc5]
                  split at h
                  · rename_i r0 heq
                    injection h with h0
                    injection h0 with h1 h2
                    subst h1
                    subst h2
                    rw [matchKw_append _ _ _ heq t]
                  · exact Option.noConfusion h
                · rename_i hc5
                  rw [if_neg hc5]
                  split at h
                  · rename_i hc6
                    rw [if_pos hc6]
                    split at h
                    · rename_i r0 heq
                      injection h with h0
                      injection h0 with h1 h2
                      subst h1
                      subst h2
                      rw [matchKw_append _ _ _ heq t]
                    · exact Option.noConfusion h
                  · rename_i hc6
                    rw [if_neg hc6]
                    split at h
                    · rename_i lit r0 heq
                      injection h with h0
                      injection h0 with h1 h2
                      subst h1
                      subst h2
                      have hr0 : r0 ≠ [] := hnum lit rfl
                      rw [show c :: (rest ++ t) = (c :: rest) ++ t from rfl,
                        parseNumber_append heq hr0 t]
                    · exact Option.noConfusion h
    · intro cs ps r t h
      rw [parsePairSeq.eq_def] at h
      dsimp only at h
      rw [parsePairSeq.eq_def]
      dsimp only
      split at h
      · rename_i rest hws
        rw [skipWs_append hws t]
        split
        · rename_i rest2 heqpat
          injection heqpat with hh1 hh2
          subst hh2
          split at h
          · rename_i key r1 hsb
            rw [parseStringBody_append hsb t]
            dsimp only
            split at h
            · rename_i r2 hws2
              rw [skipWs_append hws2 t]
              split
              · rename_i r2b heqpat2
                injection heqpat2 with hh3 hh4
                subst hh4
                split at h
                · rename_i v r3 hv
                  have hr3 : r3 ≠ [] := by
                    intro hcontra
                    subst hcontra
                    split at h
                    · rename_i c0 r4 hws3
                      rw [skipWs] at hws3
                      cases hws3
                    · exact Option.noConfusion h
                  rw [ihv r2 v r3 t hv (fun lit hl => hr3)]
                  dsimp only
                  split at h
                  · rename_i c0 r4 hws3
                    rw [skipWs_append hws3 t]
                    dsimp only
                    split at h
                    · rename_i hcm
                      rw [if_pos hcm]
                      split at h
                      · rename_i ps0 r5 heq
                        injection h with h0
                        injection h0 with h1 h2
                        subst h1
                        subst h2
                        rw [ihp r4 ps0 r5 t heq]
                      · exact Option.noConfusion h
                    · rename_i hcm
                      rw [if_neg hcm]
                      split at h
                      · rename_i hcb
                        rw [if_pos hcb]
                        injection h with h0
                        injection h0 with h1 h2
                        subst h1
                        subst h2
                        rfl
                      · exact Option.noConfusion h
                  · exact Option.noConfusion h
                · exact Option.noConfusion h
              · rename_i hshape
                exact absurd (hshape (r2 ++ t) rfl) not_false
            · exact Option.noConfusion h
          · exact Option.noConfusion h
        · rename_i hshape
          exact absurd (hshape (rest ++ t) rfl) not_false
      · exact Option.noConfusion h
    · intro cs vs r t h
      rw [parseItemSeq.eq_def] at h
      dsimp only at h
      rw [parseItemSeq.eq_def]
      dsimp only
      split at h
      · rename_i v r1 hv
        have hr1 : r1 ≠ [] := by
          intro hcontra
          subst hcontra
          split at h
          · rename_i c0 r2 hws
            rw [skipWs] at hws
            cases hws
          · exact Option.noConfusion h
        rw [ihv cs v r1 t hv (fun lit hl => hr1)]
        dsimp only
        split at h
        · rename_i c0 r2 hws
          rw [skipWs_append hws t]
          dsimp only
          split at h
          · rename_i hcm
            rw [if_pos hcm]
            split at h
            · rename_i vs0 r3 heq
              injection h with h0
              injection h0 with h1 h2
              subst h1
              subst h2
              rw [ihi r2 vs0 r3 t heq]
            · exact Option.noConfusion h
          · rename_i hcm
            rw [if_neg hcm]
            split at h
            · rename_i hcb
              rw [if_pos hcb]
              injection h with h0
              injection h0 with h1 h2
              subst h1
              subst h2
              rfl
            · exact Option.noConfusion h
        · exact Option.noConfusion h
      · exact Option.noConfusion h
theorem parse_mono : ∀ f1 : Nat, ∀ f2 : Nat,
    (∀ cs v r, 2 * cs.length + 1 ≤ f1 → 2 * cs.length + 1 ≤ f2 →
      parseVal f1 cs = some (v, r) → parseVal f2 cs = some (v, r)) ∧
    (∀ cs ps r, 2 * cs.length + 2 ≤ f1 → 2 * cs.length + 2 ≤ f2 →
      parsePairSeq f1 cs = some (ps, r) → parsePairSeq f2 cs = some (ps, r)) ∧
    (∀ cs vs r, 2 * cs.length + 2 ≤ f1 → 2 * cs.length + 2 ≤ f2 →
      parseItemSeq f1 cs = some (vs, r) → parseItemSeq f2 cs = some (vs, r)) := by
  intro f1
  induction f1 with
  | zero =>
    intro f2
    refine ⟨?_, ?_, ?_⟩ <;> intro cs a r hb1 hb2 h <;> omega
  | succ f ih =>
    intro f2
    cases f2 with
    | zero =>
      refine ⟨?_, ?_, ?_⟩ <;> intro cs a r hb1 hb2 h <;> omega
    | succ g =>
      obtain ⟨ihv, ihp, ihi⟩ := ih g
      refine ⟨?_, ?_, ?_⟩
      · intro cs v r hb1 hb2 h
        rw [parseVal.eq_def] at h
        dsimp only at h
        split at h
        · exact Option.noConfusion h
        · rename_i c rest hws
          have hlen := skipWs_cons_length hws
          split at h
          · rename_i hc
            split at h
            · rename_i c2 rest2 hws2
              split at h
              · rename_i hc2
                injection h with h0
                injection h0 with h1 h2
                subst h1
                subst h2
                rw [parseVal.eq_def]
                dsimp only
                rw [hws]
                dsimp only
                rw [if_pos hc, hws2]
                dsimp only
                rw [if_pos hc2]
              · rename_i hc2
                split at h
                · rename_i fs r0 heq
                  injection h with h0
                  injection h0 with h1 h2
                  subst h1
                  subst h2
                  rw [parseVal.eq_def]
                  dsimp only
                  rw [hws]
                  dsimp only
                  rw [if_pos hc, hws2]
                  dsimp only
                  rw [if_neg hc2, ihp rest fs r0 (by omega) (by omega) heq]
                · exact Option.noConfusion h
            · exact Option.noConfusion h
          · rename_i hc
            split at h
            · rename_i hc2
              split at h
              · rename_i c2 rest2 hws2
                split at h
                · rename_i hc3
                  injection h with h0
                  injection h0 with h1 h2
                  subst h1
                  subst h2
                  rw [parseVal.eq_def]
                  dsimp only
                  rw [hws]
                  dsimp only
                  rw [if_neg hc, if_pos hc2, hws2]
                  dsimp only
                  rw [if_pos hc3]
                · rename_i hc3
                  split at h
                  · rename_i vs r0 heq
                    injection h with h0
                    injection h0 with h1 h2
                    subst h1
                    subst h2
                    rw [parseVal.eq_def]
                    dsimp only
                    rw [hws]
                    dsimp only
                    rw [if_neg hc, if_pos hc2, hws2]
                    dsimp only
                    rw [if_neg hc3, ihi rest vs r0 (by omega) (by omega) heq]
                  · exact Option.noConfusion h
              · exact Option.noConfusion h
            · rename_i hc2
              rw [parseVal.eq_def]
              dsimp only
              rw [hws]
              dsimp only
              rw [if_neg hc, if_neg hc2]
              exact h
      · intro cs ps r hb1 hb2 h
        rw [parsePairSeq.eq_def] at h
        dsimp only at h
        split at h
        · rename_i rest hws
          have hlen := skipWs_cons_length hws
          split at h
          · rename_i key r1 hsb
            have hsb1 := parseStringBody_length hsb
            split at h
            · rename_i r2 hws2
              have hws2l := skipWs_cons_length hws2
              split at h
              · rename_i v r3 hv
                have hv1 := (parse_length f).1 r2 v r3 hv
                split at h
                · rename_i c0 r4 hws3
                  have hws3l := skipWs_cons_length hws3
                  split at h
                  · rename_i hcm
                    split at h
                    · rename_i ps0 r5 heq
                      injection h with h0
                      injection h0 with h1 h2
                      subst h1
                      subst h2
                      rw [parsePairSeq.eq_def]
                      dsimp only
                      rw [hws]
                      split
                      · rename_i rest2 heqpat
                        injection heqpat with hh1 hh2
                        subst hh2
                        rw [hsb]
                        dsimp only
                        rw [hws2]
                        split
                        · rename_i r2b heqpat2
                          injection heqpat2 with hh3 hh4
                          subst hh4
                          rw [ihv r2 v r3 (by omega) (by omega) hv]
                          dsimp only
                          rw [hws3]
                          dsimp only
                          rw [if_pos hcm,
                            ihp r4 ps0 r5 (by omega) (by omega) heq]
                        · rename_i hshape
                          exact absurd (hshape r2 rfl) not_false
                      · rename_i hshape
                        exact absurd (hshape rest rfl) not_false
                    · exact Option.noConfusion h
                  · rename_i hcm
                    split at h
                    · rename_i hcb
                      injection h with h0
                      injection h0 with h1 h2
                      subst h1
                      subst h2
                      rw [parsePairSeq.eq_def]
                      dsimp only
                      rw [hws]
                      split
                      · rename_i rest2 heqpat
                        injection heqpat with hh1 hh2
                        subst hh2
                        rw [hsb]
                        dsimp only
                        rw [hws2]
                        split
                        · rename_i r2b heqpat2
                          injection heqpat2 with hh3 hh4
                          subst hh4
                          rw [ihv r2 v r3 (by omega) (by omega) hv]
                          dsimp only
                          rw [hws3]
                          dsimp only
                          rw [if_neg hcm, if_pos hcb]
                        · rename_i hshape
                          exact absurd (hshape r2 rfl) not_false
                      · rename_i hshape
                        exact absurd (hshape rest rfl) not_false
                    · exact Option.noConfusion h
                · exact Option.noConfusion h
              · exact Option.noConfusion h
            · exact Option.noConfusion h
          · exact Option.noConfusion h
        · exact Option.noConfusion h
      · intro cs vs r hb1 hb2 h
        rw [parseItemSeq.eq_def] at h
        dsimp only at h
        split at h
        · rename_i v r1 hv
          have hv1 := (parse_length f).1 cs v r1 hv
          split at h
          · rename_i c0 r2 hws
            have hwsl := skipWs_cons_length hws
            split at h
            · rename_i hcm
              split at h
              · rename_i vs0 r3 heq
                injection h with h0
                injection h0 with h1 h2
                subst h1
                subst h2
                rw [parseItemSeq.eq_def]
                dsimp only
                rw [ihv cs v r1 (by omega) (by omega) hv]
                dsimp only
                rw [hws]
                dsimp only
                rw [if_pos hcm, ihi r2 vs0 r3 (by omega) (by omega) heq]
              · exact Option.noConfusion h
            · rename_i hcm
              split at h
              · rename_i hcb
                injection h with h0
                injection h0 with h1 h2
                subst h1
                subst h2
                rw [parseItemSeq.eq_def]
                dsimp only
                rw [ihv cs v r1 (by omega) (by omega) hv]
                dsimp only
                rw [hws]
                dsimp only
                rw [if_neg hcm, if_pos hcb]
              · exact Option.noConfusion h
          · exact Option.noConfusion h
        · exact Option.noConfusion h
theorem parseVal_fuel (f1 f2 : Nat) (cs : List Char)
    (h1 : 2 * cs.length + 1 ≤ f1) (h2 : 2 * cs.length + 1 ≤ f2) :
    parseVal f1 cs = parseVal f2 cs := by
  cases hv : parseVal f1 cs with
  | some p =>
    obtain ⟨v, r⟩ := p
    exact ((parse_mono f1 f2).1 cs v r h1 h2 hv).symm
  | none =>
    cases hv2 : parseVal f2 cs with
    | none => rfl
    | some p =>
      obtain ⟨v, r⟩ := p
      have := (parse_mono f2 f1).1 cs v r h2 h1 hv2
      rw [hv] at this
      exact Option.noConfusion this

/-- Claim C5: a decode attempt reads a single well-formed JSON value from
the head of the segment and ignores everything after it, so a payload
followed by arbitrary trailing content still decodes, to the same value,
and the loop's decode attempt gives the same result on the padded
segment. -/
theorem decodeSeg_trailing (pre tail : List Char)
    (fs : List (List Char × JVal))
    (h : decodeSeg pre = some (JVal.jobj fs, [])) :
    decodeSeg (pre ++ tail) = some (JVal.jobj fs, tail) ∧
      tryDecodeSeg (pre ++ tail) = tryDecodeSeg pre := by
  rw [decodeSeg] at h
  have hfirst : decodeSeg (pre ++ tail) = some (JVal.jobj fs, tail) := by
    rw [decodeSeg]
    have hmono := parseVal_fuel (2 * pre.length + 2)
      (2 * (pre ++ tail).length + 2) pre (by omega)
      (by simp only [List.length_append]; omega)
    rw [hmono] at h
    have happ := (parse_append (2 * (pre ++ tail).length + 2)).1 pre
      (JVal.jobj fs) [] tail h (fun lit hl => JVal.noConfusion hl)
    rw [List.nil_append] at happ
    exact happ
  refine ⟨hfirst, ?_⟩
  rw [tryDecodeSeg, tryDecodeSeg, hfirst, decodeSeg, h]

theorem decodeSeg_trailing_witness :
    decodeSeg ("\x7b\"options\":[]\x7d".data ++ " trailing ...".data) =
      some (JVal.jobj [(['o', 'p', 't', 'i', 'o', 'n', 's'], JVal.jarr [])],
        " trailing ...".data) :=
  (decodeSeg_trailing "\x7b\"options\":[]\x7d".data " trailing ...".data
    [(['o', 'p', 't', 'i', 'o', 'n', 's'], JVal.jarr [])] (by rfl)).1

theorem markerScan_empty_iff (s : List Char) :
    markerScan s = [] ↔ lastGood s = none := by
  rw [markerScan, scanLoopF_eq_lastGood (s.length + 1) s [] (by omega),
    lastGood]
  cases hlast : ((occList s).filterMap
      (fun i => tryDecodeSeg (s.drop i))).getLast? with
  | none => simp
  | some o =>
    simp only [Option.getD_some]
    constructor
    · intro hcontra
      exact absurd hcontra
        (tryDecodeSeg_ne_nil
          (List.mem_filterMap.1 (getLast?_mem_of_eq hlast)).choose_spec.2)
    · intro hcontra
      exact Option.noConfusion hcontra

theorem findSome?_mem {α β : Type} (f : α → Option β) :
    ∀ (l : List α) (b : β), l.findSome? f = some b →
      ∃ a, a ∈ l ∧ f a = some b := by
  intro l
  induction l with
  | nil => intro b h; exact Option.noConfusion h
  | cons a l ih =>
    intro b h
    rw [List.findSome?_cons] at h
    split at h
    · rename_i b0 hfa
      injection h with h0
      subst h0
      exact ⟨a, List.mem_cons_self a l, hfa⟩
    · obtain ⟨a', ha', hfa'⟩ := ih b h
      exact ⟨a', List.mem_cons_of_mem a ha', hfa'⟩

theorem optionsHit_ne_nil {reapply : List Char → Option (List optionEntry)}
    (hre : ∀ cs o, reapply cs = some o → o ≠ []) :
    ∀ v o, optionsHit reapply v = some o → o ≠ [] := by
  intro v o h
  cases v with
  | jarr es =>
    rw [optionsHit] at h
    split at h
    · rename_i opts heq
      split at h
      · exact Option.noConfusion h
      · rename_i hne
        injection h with h0
        subst h0
        intro hcontra
        have hlen : (sortOpts opts).length = opts.length :=
          List.length_insertionSort optLE opts
        rw [hcontra] at hlen
        simp only [List.length_nil] at hlen
        rw [List.isEmpty_iff_length_eq_zero] at hne
        exact hne (by omega)
    · exact Option.noConfusion h
  | jstr s => exact hre s.data o h
  | jnull => exact Option.noConfusion h
  | jbool b => exact Option.noConfusion h
  | jnum lit => exact Option.noConfusion h
  | jobj fs => exact Option.noConfusion h
mutual

theorem searchJV_ne_nil
    {reapply : List Char → Option (List optionEntry)}
    (hre : ∀ cs o, reapply cs = some o → o ≠ []) :
    ∀ v o, searchJV reapply v = some o → o ≠ [] := by
  intro v o h
  cases v with
  | jobj fs => exact searchFields_ne_nil hre fs o h
  | jarr es => exact searchItems_ne_nil hre es o h
  | jnull => exact Option.noConfusion h
  | jbool b => exact Option.noConfusion h
  | jnum lit => exact Option.noConfusion h
  | jstr s => exact Option.noConfusion h

theorem searchFields_ne_nil
    {reapply : List Char → Option (List optionEntry)}
    (hre : ∀ cs o, reapply cs = some o → o ≠ []) :
    ∀ fs o, searchFields reapply fs = some o → o ≠ [] := by
  intro fs o h
  cases fs with
  | nil => exact Option.noConfusion h
  | cons kv fs' =>
    obtain ⟨k, v⟩ := kv
    rw [searchFields] at h
    split at h
    · rename_i o0 hhit
      injection h with h0
      subst h0
      split at hhit
      · exact optionsHit_ne_nil hre v o0 hhit
      · exact Option.noConfusion hhit
    · split at h
      · rename_i o0 hsub
        injection h with h0
        subst h0
        exact searchJV_ne_nil hre v o0 hsub
      · exact searchFields_ne_nil hre fs' o h

theorem searchItems_ne_nil
    {reapply : List Char → Option (List optionEntry)}
    (hre : ∀ cs o, reapply cs = some o → o ≠ []) :
    ∀ es o, searchItems reapply es = some o → o ≠ [] := by
  intro es o h
  cases es with
  | nil => exact Option.noConfusion h
  | cons v es' =>
    rw [searchItems] at h
    split at h
    · rename_i o0 hsub
      injection h with h0
      subst h0
      exact searchJV_ne_nil hre v o0 hsub
    · exact searchItems_ne_nil hre es' o h

end

theorem lineHit_ne_nil
    {reapply : List Char → Option (List optionEntry)}
    (hre : ∀ cs o, reapply cs = some o → o ≠ []) :
    ∀ line o, lineHit reapply line = some o → o ≠ [] := by
  intro line o h
  rw [lineHit] at h
  split at h
  · rename_i v hv
    exact searchJV_ne_nil hre v o h
  · exact Option.noConfusion h

theorem extractCore_ne_nil :
    ∀ (fuel : Nat) (s : List Char) (opts : List optionEntry),
      extractCore fuel s = some opts → opts ≠ [] := by
  intro fuel
  induction fuel with
  | zero => intro s opts h; exact Option.noConfusion h
  | succ f ih =>
    intro s opts h
    rw [extractCore] at h
    split at h
    · obtain ⟨line, _, hline⟩ :=
        findSome?_mem (lineHit (fun cs => extractCore f cs))
          (splitLines s) opts h
      exact lineHit_ne_nil (fun cs o ho => ih cs o ho) line opts hline
    · rename_i hne
      injection h with h0
      subst h0
      rw [List.isEmpty_iff] at hne
      exact hne
/-- Claim C2 (spec-modelled, extractOptions is absent from the provided
sources): when no marker occurrence decodes successfully, the extractor
falls back to a line-oriented scan in which every line is parsed
independently and searched recursively; the first line yielding a
nonempty options list is returned; only a field named exactly options
counts as a hit, and a string-valued options field has the whole
extraction procedure reapplied to it. -/
theorem extractOptions_fallback (raw : String)
    (h : lastGood raw.data = none) :
    (extractOptions raw =
      match (splitLines raw.data).findSome?
          (lineHit (fun cs => extractCore raw.data.length cs)) with
      | some opts => Except.ok opts
      | none => Except.error "failed to parse options JSON") ∧
    (∀ reapply (k : List Char) (v : JVal), k ≠ optionsKey →
      searchFields reapply [(k, v)] = searchJV reapply v) ∧
    (∀ reapply (s : String),
      optionsHit reapply (JVal.jstr s) = reapply s.data) := by
  have hms : markerScan raw.data = [] := (markerScan_empty_iff _).2 h
  refine ⟨?_, ?_, ?_⟩
  · rw [extractOptions]
    have hcore : extractCore (raw.data.length + 1) raw.data =
        (splitLines raw.data).findSome?
          (lineHit (fun cs => extractCore raw.data.length cs)) := by
      rw [extractCore, hms]
      simp only [List.isEmpty_nil, if_true]
    rw [hcore]
  · intro reapply k v hk
    rw [searchFields]
    rw [if_neg hk]
    cases hs : searchJV reapply v with
    | some o => rfl
    | none => rfl
  · intro reapply s
    rfl

theorem extractOptions_fallback_witness :
    extractOptions "\x7b \"options\": [ \x7b \"value\": \"x\" \x7d ] \x7d" =
      match (splitLines
          "\x7b \"options\": [ \x7b \"value\": \"x\" \x7d ] \x7d".data).findSome?
            (lineHit (fun cs => extractCore
              "\x7b \"options\": [ \x7b \"value\": \"x\" \x7d ] \x7d".data.length cs)) with
      | some opts => Except.ok opts
      | none => Except.error "failed to parse options JSON" :=
  (extractOptions_fallback
    "\x7b \"options\": [ \x7b \"value\": \"x\" \x7d ] \x7d" (by rfl)).1

/-- Claim C4 (spec-modelled, extractOptions is absent from the provided
sources): the extractor returns its failure outcome exactly when no
marker occurrence decodes to a nonempty options list and the fallback
line scan also yields nothing; whenever it succeeds the result has at
least one option; and a lone payload with an empty options array fails. -/
theorem extractOptions_failure (raw : String) :
    (extractOptions raw = Except.error "failed to parse options JSON" ↔
      lastGood raw.data = none ∧
        (splitLines raw.data).findSome?
          (lineHit (fun cs => extractCore raw.data.length cs)) = none) ∧
    (∀ opts, extractOptions raw = Except.ok opts → opts ≠ []) ∧
    extractOptions "\x7b\"options\":[]\x7d" =
      Except.error "failed to parse options JSON" := by
  refine ⟨?_, ?_, by rfl⟩
  · constructor
    · intro herr
      rw [extractOptions] at herr
      cases hc : extractCore (raw.data.length + 1) raw.data with
      | some opts =>
        rw [hc] at herr
        exact Except.noConfusion herr
      | none =>
        rw [extractCore] at hc
        split at hc
        · rename_i hempty
          rw [List.isEmpty_iff] at hempty
          exact ⟨(markerScan_empty_iff _).1 hempty, hc⟩
        · exact Option.noConfusion hc
    · rintro ⟨h1, h2⟩
      have hms : markerScan raw.data = [] := (markerScan_empty_iff _).2 h1
      rw [extractOptions]
      have hcore : extractCore (raw.data.length + 1) raw.data = none := by
        rw [extractCore, hms]
        simp only [List.isEmpty_nil, if_true]
        exact h2
      rw [hcore]

  · intro opts h
    rw [extractOptions] at h
    cases hc : extractCore (raw.data.length + 1) raw.data with
    | none =>
      rw [hc] at h
      exact Except.noConfusion h
    | some o =>
      rw [hc] at h
      injection h with h0
      subst h0
      exact extractCore_ne_nil _ _ _ hc

theorem extractOptions_failure_witness :
    extractOptions "plain text, no json" =
      Except.error "failed to parse options JSON" :=
  (extractOptions_failure "plain text, no json").1.2 ⟨by rfl, by rfl⟩

end Instassist
